import Mathlib

/-!
Verification of the manual-clustering core of the `phy` repository.

The reviewed source file `src/phy/cluster/manual/gui_plugins.py` orchestrates a
`Clustering` store (spike → cluster assignment with merge/split), a
`GlobalHistory` (combined undo/redo over the clustering and metadata stores),
a `Wizard` (review queue / selection), and a `select_spikes` subsampler.  Only
the orchestrator is present in the repository sample; the orchestrated modules
(`clustering.py`, `_history.py`, `wizard.py`, `phy.io.array`) are modelled
from the specification, as marked on each definition.  The function
`_process_ups` and the `ManualClustering` action wrappers are embedded
directly from the source file.
-/

/-- Error taxonomy of the specification (section 7).  The source's
`NotImplementedError` raised by `_process_ups` for three or more simultaneous
updates corresponds to `notSupported`. -/
inductive PhyError where
  | invalidOperation
  | unknownCluster
  | unknownField
  | notSupported
deriving DecidableEq

/-- A spike → cluster assignment table: one `(spike id, cluster id)` pair per
known spike. -/
abbrev Assign := List (Nat × Nat)

/-- Diff record (`UpdateInfo` in the source): description, added cluster ids,
deleted cluster ids, updated spike ids, and the per-spike prior and posterior
assignments of the touched spikes (sufficient for exact undo/redo). -/
structure Diff where
  description : String
  added : List Nat
  deleted : List Nat
  spike_ids : List Nat
  old_assign : Assign
  new_assign : Assign
deriving DecidableEq

/-- The known spike ids of an assignment table. -/
def spikeIds (st : Assign) : List Nat := st.map Prod.fst

/-- The currently existing cluster ids: the image of the assignment. -/
def clusterIds (st : Assign) : List Nat := (st.map Prod.snd).dedup

/-- The derived index: the spikes currently assigned to cluster `c`, in table
order. -/
def spikesOf (c : Nat) (st : Assign) : List Nat :=
  (st.filter (fun p => p.2 == c)).map Prod.fst

/-- The largest currently used cluster id (0 when the table is empty). -/
def maxId (st : Assign) : Nat := (st.map Prod.snd).foldr max 0

/-- The spike ids of the table are pairwise distinct (the assignment is a
function). -/
abbrev keysNodup (st : Assign) : Prop := (st.map Prod.fst).Nodup

/-- First value bound to key `a` in an association list. -/
def lookupA {β : Type} (a : Nat) : List (Nat × β) → Option β
  | [] => none
  | p :: rest => if p.1 = a then some p.2 else lookupA a rest

/-- Modelled from the spec: the spikes moved by `merge cs` are the spikes of
the input clusters (`clustering.py` is not in the repository sample). -/
def mergeTouched (cs : List Nat) (st : Assign) : Assign :=
  st.filter (fun p => decide (p.2 ∈ cs.dedup))

/-- Modelled from the spec: the post-merge assignment reassigns every spike of
an input cluster to the fresh id `maxId st + 1`. -/
def mergeNewState (cs : List Nat) (st : Assign) : Assign :=
  st.map (fun p => if p.2 ∈ cs.dedup then (p.1, maxId st + 1) else p)

/-- Modelled from the spec: the diff record returned by a successful merge —
the fresh id was added, the input ids were deleted, the union of the input
clusters' spikes was updated, and the prior and posterior assignments of the
touched spikes are carried for exact undo/redo. -/
def mergeDiff (cs : List Nat) (st : Assign) : Diff :=
  ⟨"merge", [maxId st + 1], cs.dedup,
   (mergeTouched cs st).map Prod.fst,
   mergeTouched cs st,
   (mergeTouched cs st).map
     (fun p => if p.2 ∈ cs.dedup then (p.1, maxId st + 1) else p)⟩

/-- Modelled from the spec: `SpikeClusterAssignment.merge` (section 4.1).
Fails with `InvalidOperation` unless at least two distinct cluster ids are
given and all of them currently exist; otherwise moves all their spikes to the
fresh cluster id `maxId st + 1` and returns the diff record. -/
def merge (cs : List Nat) (st : Assign) : Except PhyError (Assign × Diff) :=
  if 2 ≤ cs.dedup.length ∧ ∀ c ∈ cs.dedup, c ∈ clusterIds st then
    .ok (mergeNewState cs st, mergeDiff cs st)
  else .error .invalidOperation

/-- Modelled from the spec: the table rows of the spikes being split out. -/
def splitMoved (ss : List Nat) (st : Assign) : Assign :=
  st.filter (fun p => decide (p.1 ∈ ss.dedup))

/-- Modelled from the spec: the source clusters of a split — the clusters the
split spikes currently belong to. -/
def sources (ss : List Nat) (st : Assign) : List Nat :=
  ((splitMoved ss st).map Prod.snd).dedup

/-- Modelled from the spec: all table rows of the source clusters (retained
source clusters are still reported in `updated_spike_ids`). -/
def splitTouched (ss : List Nat) (st : Assign) : Assign :=
  st.filter (fun p => decide (p.2 ∈ sources ss st))

/-- Modelled from the spec: the post-split assignment moves exactly the split
spikes to the fresh cluster id `maxId st + 1`. -/
def splitNewState (ss : List Nat) (st : Assign) : Assign :=
  st.map (fun p => if p.1 ∈ ss.dedup then (p.1, maxId st + 1) else p)

/-- Modelled from the spec: the diff record returned by a successful split —
the fresh id was added, the fully emptied source clusters were deleted, all
spikes of the source clusters were updated, and the prior and posterior
assignments of the touched spikes are carried for exact undo/redo. -/
def splitDiff (ss : List Nat) (st : Assign) : Diff :=
  ⟨"split", [maxId st + 1],
   (sources ss st).filter (fun c => spikesOf c (splitNewState ss st) == []),
   (splitTouched ss st).map Prod.fst,
   splitTouched ss st,
   (splitTouched ss st).map
     (fun p => if p.1 ∈ ss.dedup then (p.1, maxId st + 1) else p)⟩

/-- Modelled from the spec: `SpikeClusterAssignment.split` (section 4.1).
Fails with `InvalidOperation` unless the spike set is non-empty and every
spike id is known; otherwise moves the given spikes to one fresh cluster id,
deleting the source clusters that become empty. -/
def split (ss : List Nat) (st : Assign) : Except PhyError (Assign × Diff) :=
  if ss.dedup ≠ [] ∧ ∀ s ∈ ss.dedup, s ∈ spikeIds st then
    .ok (splitNewState ss st, splitDiff ss st)
  else .error .invalidOperation

/-- A clustering operation on the assignment store. -/
inductive SOp where
  | opMerge (cs : List Nat)
  | opSplit (ss : List Nat)

/-- Run one clustering operation on an assignment table. -/
def sexec (st : Assign) : SOp → Except PhyError (Assign × Diff)
  | .opMerge cs => merge cs st
  | .opSplit ss => split ss st

/-- Patch one table row: a spike with an entry in the patch takes the patched
cluster id, any other spike keeps its current one. -/
def patchFn (patch : Assign) (p : Nat × Nat) : Nat × Nat :=
  match lookupA p.1 patch with
  | some c => (p.1, c)
  | none => p

/-- Apply a per-spike assignment patch to every row of the table. -/
def applyPatch (patch : Assign) (st : Assign) : Assign :=
  st.map (patchFn patch)

/-- Modelled from the spec: the `Clustering` store — the assignment table
together with its linear undo/redo history of diff records (sections 4.1 and
4.3; `clustering.py` and `_history.py` are not in the repository sample).  The
history position pointer is represented by the two stacks: the undo-able
prefix and the redo-able suffix. -/
structure Clustering where
  spike_clusters : Assign
  undo_stack : List Diff
  redo_stack : List Diff
deriving DecidableEq

/-- Run a merge or split on the store: mutate the assignment, record the diff,
and discard the redo suffix. -/
def execOp (ck : Clustering) (op : SOp) : Except PhyError (Clustering × Diff) :=
  match sexec ck.spike_clusters op with
  | .error e => .error e
  | .ok (st', d) => .ok (⟨st', d :: ck.undo_stack, []⟩, d)

/-- Modelled from the spec: `undo` — a silent no-op at the start of the
history, otherwise applies the prior per-spike assignments recorded in the
most recent diff and moves the position back by one. -/
def undoOp (ck : Clustering) : Clustering :=
  match ck.undo_stack with
  | [] => ck
  | d :: rest =>
    ⟨applyPatch d.old_assign ck.spike_clusters, rest, d :: ck.redo_stack⟩

/-- Modelled from the spec: `redo` — a silent no-op at the end of the history,
otherwise re-applies the posterior per-spike assignments of the next diff and
advances the position. -/
def redoOp (ck : Clustering) : Clustering :=
  match ck.redo_stack with
  | [] => ck
  | d :: rest =>
    ⟨applyPatch d.new_assign ck.spike_clusters, d :: ck.undo_stack, rest⟩

/-- Reachability of one store state from another by any sequence of
successful merges, splits, undos and redos. -/
inductive Reach : Clustering → Clustering → Prop
  | refl (ck : Clustering) : Reach ck ck
  | step {a b c : Clustering} {op : SOp} {d : Diff} :
      Reach a b → execOp b op = .ok (c, d) → Reach a c
  | undo {a b : Clustering} : Reach a b → Reach a (undoOp b)
  | redo {a b : Clustering} : Reach a b → Reach a (redoOp b)

/-- Reachability of one assignment table from another by a sequence of
successful merge and split operations. -/
inductive MsReach : Assign → Assign → Prop
  | refl (st : Assign) : MsReach st st
  | step {a b c : Assign} {op : SOp} {d : Diff} :
      MsReach a b → sexec b op = .ok (c, d) → MsReach a c

/-- Modelled from the spec: the wizard state — review queue, pinned cluster,
current selection (section 4.5; `wizard.py` is not in the repository
sample). -/
structure Wizard where
  review_queue : List Nat
  pinned : Option Nat
  selection : List Nat
deriving DecidableEq

/-- Modelled from the spec: the wizard's change-notification handler — removes
deleted cluster ids from the review queue, the pinned slot and the selection,
and appends the added cluster ids to the end of the review queue. -/
def on_cluster (d : Diff) (w : Wizard) : Wizard :=
  ⟨(w.review_queue.filter (fun c => decide (c ∉ d.deleted))) ++ d.added,
   match w.pinned with
   | some p => if p ∈ d.deleted then none else some p
   | none => none,
   w.selection.filter (fun c => decide (c ∉ d.deleted))⟩

/-- Modelled from the spec: `UpdateInfo.update` combines a second store's diff
into a first one by taking the union (concatenation) of the added, deleted and
updated fields of both (the `UpdateInfo` class itself is not in the repository
sample). -/
def Diff.update (u v : Diff) : Diff :=
  ⟨u.description ++ v.description,
   u.added ++ v.added,
   u.deleted ++ v.deleted,
   u.spike_ids ++ v.spike_ids,
   u.old_assign ++ v.old_assign,
   u.new_assign ++ v.new_assign⟩

/-- Embedded from `src/phy/cluster/manual/gui_plugins.py` (`_process_ups`):
zero updates give nothing, one is returned as-is, two are combined by
updating the first in place with the second, three or more raise
`NotImplementedError`.  The second component of the result is the state of the
argument list after the call, making the in-place mutation of `ups[0]`
explicit. -/
def _process_ups (ups : List Diff) : Except PhyError (Option Diff × List Diff) :=
  match ups with
  | [] => .ok (none, [])
  | [u] => .ok (some u, [u])
  | [u, v] => .ok (some (u.update v), [u.update v, v])
  | _ => .error .notSupported

/-- Modelled from the spec: `GlobalHistory` recording one logical action — the
per-store diff contributions are combined by `_process_ups`; when the result
is empty no history entry is recorded (`_history.py` is not in the repository
sample). -/
def recordUps (hist : List Diff) (ups : List Diff) :
    Except PhyError (List Diff) :=
  match _process_ups ups with
  | .error e => .error e
  | .ok (none, _) => .ok hist
  | .ok (some w, _) => .ok (w :: hist)

/-- The state of the `ManualClustering` plugin relevant to its clustering
actions: the clustering store and the attached wizard. -/
structure ManualClustering where
  clustering : Clustering
  wizard : Wizard
deriving DecidableEq

/-- Embedded from `src/phy/cluster/manual/gui_plugins.py`
(`ManualClustering.merge`): when called without cluster ids it merges the
wizard's current selection; the wizard is then notified of the diff. -/
def ManualClustering.merge (mc : ManualClustering)
    (cluster_ids : Option (List Nat)) : Except PhyError ManualClustering :=
  let cs := match cluster_ids with
    | none => mc.wizard.selection
    | some cs => cs
  match execOp mc.clustering (.opMerge cs) with
  | .error e => .error e
  | .ok (ck', d) => .ok ⟨ck', on_cluster d mc.wizard⟩

/-- Modelled from the spec: deterministic bounded subsampling of one cluster's
spike list — the whole list when it fits the bound, otherwise an evenly
strided subset of `m` of its elements (`phy.io.array` is not in the repository
sample). -/
def subsample (l : List Nat) (m : Nat) : List Nat :=
  if l.length ≤ m then l
  else (List.range m).map (fun i => l.getD (i * l.length / m) 0)

/-- Modelled from the spec: `select_spikes` — for each cluster id in order,
fails with `UnknownCluster` when the id is absent from the index, otherwise
takes at most `m` of that cluster's spikes, and concatenates the per-cluster
selections in the order of `cluster_ids`. -/
def select_spikes (cluster_ids : List Nat) (m : Nat)
    (spc : List (Nat × List Nat)) : Except PhyError (List Nat) :=
  match cluster_ids with
  | [] => .ok []
  | c :: rest =>
    match lookupA c spc with
    | none => .error .unknownCluster
    | some l =>
      match select_spikes rest m spc with
      | .error e => .error e
      | .ok r => .ok (subsample l m ++ r)

/-- The worked example of spec section 8: clusters 1 ↦ spikes 0,1,2;
2 ↦ spikes 3,4; 3 ↦ spike 5. -/
def st₀ : Assign := [(0, 1), (1, 1), (2, 1), (3, 2), (4, 2), (5, 3)]

/-- A fresh clustering store over the example table. -/
def ck₀ : Clustering := ⟨st₀, [], []⟩

/-- The diff produced by merging clusters 1 and 2 of the example table. -/
def dA : Diff :=
  ⟨"merge", [4], [1, 2], [0, 1, 2, 3, 4],
   [(0, 1), (1, 1), (2, 1), (3, 2), (4, 2)],
   [(0, 4), (1, 4), (2, 4), (3, 4), (4, 4)]⟩

/-- The example table after merging clusters 1 and 2. -/
def stA : Assign := [(0, 4), (1, 4), (2, 4), (3, 4), (4, 4), (5, 3)]

/-- The clustering store after merging clusters 1 and 2 of the example. -/
def ckA : Clustering := ⟨stA, [dA], []⟩

/-- An example wizard state over the example table. -/
def w₀ : Wizard := ⟨[1, 2, 3], none, [1, 2]⟩

/-- An example spikes-per-cluster index for the subsampler. -/
def spc₀ : List (Nat × List Nat) := [(1, [0, 1, 2]), (2, [3, 4]), (3, [5])]

/-- A concrete first diff contribution for the immutability counterexample. -/
def cexU : Diff := ⟨"merge", [1], [], [], [], []⟩

/-- A concrete second diff contribution for the immutability counterexample. -/
def cexV : Diff := ⟨"move", [2], [], [], [], []⟩

/-- The combined diff produced from `cexU` and `cexV`. -/
def cexW : Diff := ⟨"mergemove", [1, 2], [], [], [], []⟩

/-! ## Basic lemmas about the assignment table -/

theorem lookupA_eq_some {β : Type} {st : List (Nat × β)}
    (hN : (st.map Prod.fst).Nodup) {p : Nat × β} (hp : p ∈ st) :
    lookupA p.1 st = some p.2 := by
  induction st with
  | nil => cases hp
  | cons q rest ih =>
    rcases List.mem_cons.mp hp with h | h
    · subst h
      simp [lookupA]
    · have hq : q.1 ≠ p.1 := by
        intro hc
        have : q.1 ∉ rest.map Prod.fst := (List.nodup_cons.mp hN).1
        exact this (hc ▸ List.mem_map.mpr ⟨p, h, rfl⟩)
      simp only [lookupA]
      rw [if_neg hq]
      exact ih (List.nodup_cons.mp hN).2 h

theorem lookupA_eq_none {β : Type} {st : List (Nat × β)} {a : Nat}
    (h : a ∉ st.map Prod.fst) : lookupA a st = none := by
  induction st with
  | nil => rfl
  | cons q rest ih =>
    simp only [List.map_cons, List.mem_cons, not_or] at h
    simp only [lookupA]
    rw [if_neg (fun hc => h.1 hc.symm)]
    exact ih h.2

theorem mem_spikesOf {s c : Nat} {st : Assign} :
    s ∈ spikesOf c st ↔ (s, c) ∈ st := by
  simp only [spikesOf, List.mem_map, List.mem_filter, beq_iff_eq]
  constructor
  · rintro ⟨p, ⟨hp, h2⟩, h1⟩
    have : p = (s, c) := by
      cases p
      simp_all
    exact this ▸ hp
  · intro h
    exact ⟨(s, c), ⟨h, rfl⟩, rfl⟩

theorem mem_clusterIds {c : Nat} {st : Assign} :
    c ∈ clusterIds st ↔ ∃ s, (s, c) ∈ st := by
  simp only [clusterIds, List.mem_dedup, List.mem_map]
  constructor
  · rintro ⟨p, hp, h2⟩
    exact ⟨p.1, by cases p; simp_all⟩
  · rintro ⟨s, h⟩
    exact ⟨(s, c), h, rfl⟩

theorem mem_spikeIds {s : Nat} {st : Assign} :
    s ∈ spikeIds st ↔ ∃ c, (s, c) ∈ st := by
  simp only [spikeIds, List.mem_map]
  constructor
  · rintro ⟨p, hp, h1⟩
    exact ⟨p.2, by cases p; simp_all⟩
  · rintro ⟨c, h⟩
    exact ⟨(s, c), h, rfl⟩

theorem le_foldr_max {l : List Nat} {a : Nat} (h : a ∈ l) :
    a ≤ l.foldr max 0 := by
  induction l with
  | nil => cases h
  | cons b t ih =>
    rcases List.mem_cons.mp h with rfl | h
    · exact le_max_left _ _
    · exact le_trans (ih h) (le_max_right _ _)

theorem foldr_max_le {l : List Nat} {a : Nat} (h : ∀ x ∈ l, x ≤ a) :
    l.foldr max 0 ≤ a := by
  induction l with
  | nil => exact Nat.zero_le a
  | cons b t ih =>
    exact max_le (h b (List.mem_cons_self b t))
      (ih (fun x hx => h x (List.mem_cons_of_mem b hx)))

theorem snd_le_maxId {p : Nat × Nat} {st : Assign} (h : p ∈ st) :
    p.2 ≤ maxId st :=
  le_foldr_max (List.mem_map.mpr ⟨p, h, rfl⟩)

theorem clusterIds_le_maxId {c : Nat} {st : Assign}
    (h : c ∈ clusterIds st) : c ≤ maxId st := by
  obtain ⟨s, hs⟩ := mem_clusterIds.mp h
  exact snd_le_maxId hs

theorem pair_eq_of_keysNodup {st : Assign} (hN : keysNodup st)
    {p q : Nat × Nat} (hp : p ∈ st) (hq : q ∈ st) (h : p.1 = q.1) : p = q :=
  List.inj_on_of_nodup_map hN hp hq h

/-! ## Success and failure characterizations of merge and split -/

theorem merge_ok_iff {cs : List Nat} {st st' : Assign} {d : Diff} :
    merge cs st = .ok (st', d) ↔
      ((2 ≤ cs.dedup.length ∧ ∀ c ∈ cs.dedup, c ∈ clusterIds st) ∧
       st' = mergeNewState cs st ∧ d = mergeDiff cs st) := by
  unfold merge
  split
  next hg =>
    simp only [Except.ok.injEq, Prod.mk.injEq]
    constructor
    · rintro ⟨h1, h2⟩
      exact ⟨hg, h1.symm, h2.symm⟩
    · rintro ⟨-, h1, h2⟩
      exact ⟨h1.symm, h2.symm⟩
  next hg =>
    constructor
    · intro he
      cases he
    · rintro ⟨h1, -, -⟩
      exact absurd h1 hg

theorem merge_error {cs : List Nat} {st : Assign}
    (h : ¬(2 ≤ cs.dedup.length ∧ ∀ c ∈ cs.dedup, c ∈ clusterIds st)) :
    merge cs st = .error .invalidOperation := by
  unfold merge
  rw [if_neg h]

theorem split_ok_iff {ss : List Nat} {st st' : Assign} {d : Diff} :
    split ss st = .ok (st', d) ↔
      ((ss.dedup ≠ [] ∧ ∀ s ∈ ss.dedup, s ∈ spikeIds st) ∧
       st' = splitNewState ss st ∧ d = splitDiff ss st) := by
  unfold split
  split
  next hg =>
    simp only [Except.ok.injEq, Prod.mk.injEq]
    constructor
    · rintro ⟨h1, h2⟩
      exact ⟨hg, h1.symm, h2.symm⟩
    · rintro ⟨-, h1, h2⟩
      exact ⟨h1.symm, h2.symm⟩
  next hg =>
    constructor
    · intro he
      cases he
    · rintro ⟨h1, -, -⟩
      exact absurd h1 hg

theorem split_error {ss : List Nat} {st : Assign}
    (h : ¬(ss.dedup ≠ [] ∧ ∀ s ∈ ss.dedup, s ∈ spikeIds st)) :
    split ss st = .error .invalidOperation := by
  unfold split
  rw [if_neg h]

/-! ## Membership characterizations of the post-operation tables -/

theorem mem_mergeNewState {cs : List Nat} {st : Assign} {s c : Nat} :
    (s, c) ∈ mergeNewState cs st ↔
      ((∃ c', c' ∈ cs.dedup ∧ (s, c') ∈ st) ∧ c = maxId st + 1) ∨
      ((s, c) ∈ st ∧ c ∉ cs.dedup) := by
  simp only [mergeNewState, List.mem_map]
  constructor
  · rintro ⟨⟨a, b⟩, hp, hf⟩
    by_cases hc : b ∈ cs.dedup
    · rw [if_pos hc] at hf
      cases hf
      exact Or.inl ⟨⟨b, hc, hp⟩, rfl⟩
    · rw [if_neg hc] at hf
      cases hf
      exact Or.inr ⟨hp, hc⟩
  · rintro (⟨⟨c', hc', hm⟩, rfl⟩ | ⟨hm, hc⟩)
    · exact ⟨(s, c'), hm, by simp [hc']⟩
    · exact ⟨(s, c), hm, by simp [hc]⟩

theorem mem_splitNewState {ss : List Nat} {st : Assign} {s c : Nat} :
    (s, c) ∈ splitNewState ss st ↔
      (s ∈ ss.dedup ∧ (∃ c', (s, c') ∈ st) ∧ c = maxId st + 1) ∨
      ((s, c) ∈ st ∧ s ∉ ss.dedup) := by
  simp only [splitNewState, List.mem_map]
  constructor
  · rintro ⟨⟨a, b⟩, hp, hf⟩
    by_cases hc : a ∈ ss.dedup
    · rw [if_pos hc] at hf
      cases hf
      exact Or.inl ⟨hc, ⟨b, hp⟩, rfl⟩
    · rw [if_neg hc] at hf
      cases hf
      exact Or.inr ⟨hp, hc⟩
  · rintro (⟨hs, ⟨c', hm⟩, rfl⟩ | ⟨hm, hc⟩)
    · exact ⟨(s, c'), hm, by simp [hs]⟩
    · exact ⟨(s, c), hm, by simp [hc]⟩

theorem mergeNewState_keys {cs : List Nat} {st : Assign} :
    spikeIds (mergeNewState cs st) = spikeIds st := by
  simp only [spikeIds, mergeNewState, List.map_map]
  apply List.map_congr_left
  intro p hp
  simp only [Function.comp_apply]
  by_cases h : p.2 ∈ cs.dedup
  · rw [if_pos h]
  · rw [if_neg h]

theorem splitNewState_keys {ss : List Nat} {st : Assign} :
    spikeIds (splitNewState ss st) = spikeIds st := by
  simp only [spikeIds, splitNewState, List.map_map]
  apply List.map_congr_left
  intro p hp
  simp only [Function.comp_apply]
  by_cases h : p.1 ∈ ss.dedup
  · rw [if_pos h]
  · rw [if_neg h]

theorem applyPatch_keys {patch st : Assign} :
    spikeIds (applyPatch patch st) = spikeIds st := by
  simp only [spikeIds, applyPatch, List.map_map]
  apply List.map_congr_left
  intro p hp
  simp only [Function.comp_apply, patchFn]
  cases h : lookupA p.1 patch <;> simp

/-! ## Fresh-id lemmas -/

theorem maxId_le {st : Assign} {a : Nat} (h : ∀ p ∈ st, p.2 ≤ a) :
    maxId st ≤ a := by
  apply foldr_max_le
  intro x hx
  obtain ⟨p, hp, rfl⟩ := List.mem_map.mp hx
  exact h p hp

theorem maxId_mergeNewState {cs : List Nat} {st : Assign}
    (hg : 2 ≤ cs.dedup.length ∧ ∀ c ∈ cs.dedup, c ∈ clusterIds st) :
    maxId (mergeNewState cs st) = maxId st + 1 := by
  apply le_antisymm
  · apply maxId_le
    intro p hp
    simp only [mergeNewState, List.mem_map] at hp
    obtain ⟨q, hq, rfl⟩ := hp
    by_cases h : q.2 ∈ cs.dedup
    · simp [h]
    · simp only [if_neg h]
      exact le_trans (snd_le_maxId hq) (Nat.le_succ _)
  · have hne : cs.dedup ≠ [] := by
      intro hc
      rw [hc] at hg
      exact absurd hg.1 (by simp)
    obtain ⟨c, hc⟩ := List.exists_mem_of_ne_nil _ hne
    obtain ⟨s, hs⟩ := mem_clusterIds.mp (hg.2 c hc)
    have : (s, maxId st + 1) ∈ mergeNewState cs st :=
      mem_mergeNewState.mpr (Or.inl ⟨⟨c, hc, hs⟩, rfl⟩)
    exact snd_le_maxId this

theorem maxId_splitNewState {ss : List Nat} {st : Assign}
    (hg : ss.dedup ≠ [] ∧ ∀ s ∈ ss.dedup, s ∈ spikeIds st) :
    maxId (splitNewState ss st) = maxId st + 1 := by
  apply le_antisymm
  · apply maxId_le
    intro p hp
    simp only [splitNewState, List.mem_map] at hp
    obtain ⟨q, hq, rfl⟩ := hp
    by_cases h : q.1 ∈ ss.dedup
    · simp [h]
    · simp only [if_neg h]
      exact le_trans (snd_le_maxId hq) (Nat.le_succ _)
  · obtain ⟨s, hs⟩ := List.exists_mem_of_ne_nil _ hg.1
    obtain ⟨c, hc⟩ := mem_spikeIds.mp (hg.2 s hs)
    have : (s, maxId st + 1) ∈ splitNewState ss st :=
      mem_splitNewState.mpr (Or.inl ⟨hs, ⟨c, hc⟩, rfl⟩)
    exact snd_le_maxId this

/-! ## Exact invertibility of diffs -/

theorem keysNodup_filter {st : Assign} {q : Nat × Nat → Bool}
    (hN : keysNodup st) : keysNodup (st.filter q) :=
  List.Nodup.sublist (List.Sublist.map Prod.fst (List.filter_sublist st)) hN

theorem applyPatch_restore {st : Assign} {q : Nat × Nat → Bool}
    {f : Nat × Nat → Nat × Nat} (hN : keysNodup st)
    (hf1 : ∀ p, (f p).1 = p.1)
    (hf2 : ∀ p ∈ st, q p = false → f p = p) :
    applyPatch (st.filter q) (st.map f) = st := by
  have hNf : keysNodup (st.filter q) := keysNodup_filter hN
  unfold applyPatch
  rw [List.map_map]
  have hcong : ∀ p ∈ st, (patchFn (st.filter q) ∘ f) p = id p := by
    intro p hp
    simp only [Function.comp_apply, patchFn, id_eq, hf1]
    by_cases hq : q p = true
    · rw [lookupA_eq_some hNf (List.mem_filter.mpr ⟨hp, hq⟩)]
    · have hq' : q p = false := by
        revert hq
        cases q p <;> simp
      have hnm : p.1 ∉ (st.filter q).map Prod.fst := by
        intro hc
        obtain ⟨r, hr, hr1⟩ := List.mem_map.mp hc
        have hrs := List.mem_filter.mp hr
        have hrp : r = p := pair_eq_of_keysNodup hN hrs.1 hp hr1
        rw [hrp] at hrs
        simp [hrs.2] at hq'
      rw [lookupA_eq_none hnm]
      exact hf2 p hp hq'
  rw [List.map_congr_left hcong, List.map_id]

theorem applyPatch_advance {st : Assign} {q : Nat × Nat → Bool}
    {f : Nat × Nat → Nat × Nat} (hN : keysNodup st)
    (hf1 : ∀ p, (f p).1 = p.1)
    (hf2 : ∀ p ∈ st, q p = false → f p = p) :
    applyPatch ((st.filter q).map f) st = st.map f := by
  have hkeys : ((st.filter q).map f).map Prod.fst = (st.filter q).map Prod.fst := by
    rw [List.map_map]
    exact List.map_congr_left (fun p _ => hf1 p)
  have hNf : (((st.filter q).map f).map Prod.fst).Nodup := by
    rw [hkeys]
    exact keysNodup_filter hN
  unfold applyPatch
  apply List.map_congr_left
  intro p hp
  simp only [patchFn]
  by_cases hq : q p = true
  · have hmem : f p ∈ (st.filter q).map f :=
      List.mem_map.mpr ⟨p, List.mem_filter.mpr ⟨hp, hq⟩, rfl⟩
    have : lookupA (f p).1 ((st.filter q).map f) = some (f p).2 :=
      lookupA_eq_some hNf hmem
    rw [hf1] at this
    rw [this]
    show (p.1, (f p).2) = f p
    rw [← hf1 p]
  · have hq' : q p = false := by
      revert hq
      cases q p <;> simp
    have hnm : p.1 ∉ ((st.filter q).map f).map Prod.fst := by
      rw [hkeys]
      intro hc
      obtain ⟨r, hr, hr1⟩ := List.mem_map.mp hc
      have hrs := List.mem_filter.mp hr
      have hrp : r = p := pair_eq_of_keysNodup hN hrs.1 hp hr1
      rw [hrp] at hrs
      simp [hrs.2] at hq'
    rw [lookupA_eq_none hnm]
    exact (hf2 p hp hq').symm

theorem clusterIds_iff_spikesOf {c : Nat} {st : Assign} :
    c ∈ clusterIds st ↔ spikesOf c st ≠ [] := by
  rw [mem_clusterIds]
  constructor
  · rintro ⟨s, hs⟩ hc
    have hmem : s ∈ spikesOf c st := mem_spikesOf.mpr hs
    rw [hc] at hmem
    cases hmem
  · intro h
    obtain ⟨s, hs⟩ := List.exists_mem_of_ne_nil _ h
    exact ⟨s, mem_spikesOf.mp hs⟩

theorem merge_undo {cs : List Nat} {st st' : Assign} {d : Diff}
    (hN : keysNodup st) (h : merge cs st = .ok (st', d)) :
    applyPatch d.old_assign st' = st := by
  obtain ⟨hg, rfl, rfl⟩ := merge_ok_iff.mp h
  show applyPatch (st.filter (fun p => decide (p.2 ∈ cs.dedup)))
    (st.map (fun p => if p.2 ∈ cs.dedup then (p.1, maxId st + 1) else p)) = st
  apply applyPatch_restore hN
  · intro p
    by_cases h' : p.2 ∈ cs.dedup
    · rw [if_pos h']
    · rw [if_neg h']
  · intro p hp hq
    have h' : p.2 ∉ cs.dedup := of_decide_eq_false hq
    rw [if_neg h']

theorem merge_redo {cs : List Nat} {st st' : Assign} {d : Diff}
    (hN : keysNodup st) (h : merge cs st = .ok (st', d)) :
    applyPatch d.new_assign st = st' := by
  obtain ⟨hg, rfl, rfl⟩ := merge_ok_iff.mp h
  show applyPatch ((st.filter (fun p => decide (p.2 ∈ cs.dedup))).map
      (fun p => if p.2 ∈ cs.dedup then (p.1, maxId st + 1) else p)) st =
    st.map (fun p => if p.2 ∈ cs.dedup then (p.1, maxId st + 1) else p)
  apply applyPatch_advance hN
  · intro p
    by_cases h' : p.2 ∈ cs.dedup
    · rw [if_pos h']
    · rw [if_neg h']
  · intro p hp hq
    have h' : p.2 ∉ cs.dedup := of_decide_eq_false hq
    rw [if_neg h']

theorem mem_sources {ss : List Nat} {st : Assign} {c : Nat} :
    c ∈ sources ss st ↔ ∃ s ∈ ss.dedup, (s, c) ∈ st := by
  simp only [sources, splitMoved, List.mem_dedup, List.mem_map, List.mem_filter,
    decide_eq_true_eq]
  constructor
  · rintro ⟨⟨a, b⟩, ⟨hp, hs⟩, rfl⟩
    exact ⟨a, hs, hp⟩
  · rintro ⟨s, hs, hm⟩
    exact ⟨(s, c), ⟨hm, hs⟩, rfl⟩

theorem split_undo {ss : List Nat} {st st' : Assign} {d : Diff}
    (hN : keysNodup st) (h : split ss st = .ok (st', d)) :
    applyPatch d.old_assign st' = st := by
  obtain ⟨hg, rfl, rfl⟩ := split_ok_iff.mp h
  show applyPatch (st.filter (fun p => decide (p.2 ∈ sources ss st)))
    (st.map (fun p => if p.1 ∈ ss.dedup then (p.1, maxId st + 1) else p)) = st
  apply applyPatch_restore hN
  · intro p
    by_cases h' : p.1 ∈ ss.dedup
    · rw [if_pos h']
    · rw [if_neg h']
  · intro p hp hq
    have h' : p.2 ∉ sources ss st := of_decide_eq_false hq
    have h'' : p.1 ∉ ss.dedup := by
      intro hc
      exact h' (mem_sources.mpr ⟨p.1, hc, Prod.mk.eta ▸ hp⟩)
    rw [if_neg h'']

theorem split_redo {ss : List Nat} {st st' : Assign} {d : Diff}
    (hN : keysNodup st) (h : split ss st = .ok (st', d)) :
    applyPatch d.new_assign st = st' := by
  obtain ⟨hg, rfl, rfl⟩ := split_ok_iff.mp h
  show applyPatch ((st.filter (fun p => decide (p.2 ∈ sources ss st))).map
      (fun p => if p.1 ∈ ss.dedup then (p.1, maxId st + 1) else p)) st =
    st.map (fun p => if p.1 ∈ ss.dedup then (p.1, maxId st + 1) else p)
  apply applyPatch_advance hN
  · intro p
    by_cases h' : p.1 ∈ ss.dedup
    · rw [if_pos h']
    · rw [if_neg h']
  · intro p hp hq
    have h' : p.2 ∉ sources ss st := of_decide_eq_false hq
    have h'' : p.1 ∉ ss.dedup := by
      intro hc
      exact h' (mem_sources.mpr ⟨p.1, hc, Prod.mk.eta ▸ hp⟩)
    rw [if_neg h'']

/-! ## Operation-level facts -/

theorem sexec_undo {st st' : Assign} {op : SOp} {d : Diff}
    (hN : keysNodup st) (h : sexec st op = .ok (st', d)) :
    applyPatch d.old_assign st' = st := by
  cases op with
  | opMerge cs => exact merge_undo hN h
  | opSplit ss => exact split_undo hN h

theorem sexec_redo {st st' : Assign} {op : SOp} {d : Diff}
    (hN : keysNodup st) (h : sexec st op = .ok (st', d)) :
    applyPatch d.new_assign st = st' := by
  cases op with
  | opMerge cs => exact merge_redo hN h
  | opSplit ss => exact split_redo hN h

theorem sexec_keys {st st' : Assign} {op : SOp} {d : Diff}
    (h : sexec st op = .ok (st', d)) : spikeIds st' = spikeIds st := by
  cases op with
  | opMerge cs =>
    obtain ⟨-, rfl, -⟩ := merge_ok_iff.mp h
    exact mergeNewState_keys
  | opSplit ss =>
    obtain ⟨-, rfl, -⟩ := split_ok_iff.mp h
    exact splitNewState_keys

theorem sexec_added {st st' : Assign} {op : SOp} {d : Diff}
    (h : sexec st op = .ok (st', d)) : d.added = [maxId st + 1] := by
  cases op with
  | opMerge cs =>
    obtain ⟨-, -, rfl⟩ := merge_ok_iff.mp h
    rfl
  | opSplit ss =>
    obtain ⟨-, -, rfl⟩ := split_ok_iff.mp h
    rfl

theorem sexec_maxId {st st' : Assign} {op : SOp} {d : Diff}
    (h : sexec st op = .ok (st', d)) : maxId st' = maxId st + 1 := by
  cases op with
  | opMerge cs =>
    obtain ⟨hg, rfl, -⟩ := merge_ok_iff.mp h
    exact maxId_mergeNewState hg
  | opSplit ss =>
    obtain ⟨hg, rfl, -⟩ := split_ok_iff.mp h
    exact maxId_splitNewState hg

theorem sexec_clusterIds_sub {st st' : Assign} {op : SOp} {d : Diff}
    (h : sexec st op = .ok (st', d)) {c : Nat} (hc : c ∈ clusterIds st') :
    c ∈ clusterIds st ∨ c = maxId st + 1 := by
  obtain ⟨s, hs⟩ := mem_clusterIds.mp hc
  cases op with
  | opMerge cs =>
    obtain ⟨hg, rfl, -⟩ := merge_ok_iff.mp h
    rcases mem_mergeNewState.mp hs with ⟨-, rfl⟩ | ⟨hm, -⟩
    · exact Or.inr rfl
    · exact Or.inl (mem_clusterIds.mpr ⟨s, hm⟩)
  | opSplit ss =>
    obtain ⟨hg, rfl, -⟩ := split_ok_iff.mp h
    rcases mem_splitNewState.mp hs with ⟨-, -, rfl⟩ | ⟨hm, -⟩
    · exact Or.inr rfl
    · exact Or.inl (mem_clusterIds.mpr ⟨s, hm⟩)

theorem sexec_new_mem {st st' : Assign} {op : SOp} {d : Diff}
    (h : sexec st op = .ok (st', d)) : maxId st + 1 ∈ clusterIds st' := by
  cases op with
  | opMerge cs =>
    obtain ⟨hg, rfl, -⟩ := merge_ok_iff.mp h
    have hne : cs.dedup ≠ [] := by
      intro hc
      rw [hc] at hg
      exact absurd hg.1 (by simp)
    obtain ⟨c, hc⟩ := List.exists_mem_of_ne_nil _ hne
    obtain ⟨s, hs⟩ := mem_clusterIds.mp (hg.2 c hc)
    exact mem_clusterIds.mpr ⟨s, mem_mergeNewState.mpr (Or.inl ⟨⟨c, hc, hs⟩, rfl⟩)⟩
  | opSplit ss =>
    obtain ⟨hg, rfl, -⟩ := split_ok_iff.mp h
    obtain ⟨s, hs⟩ := List.exists_mem_of_ne_nil _ hg.1
    obtain ⟨c, hc⟩ := mem_spikeIds.mp (hg.2 s hs)
    exact mem_clusterIds.mpr ⟨s, mem_splitNewState.mpr (Or.inl ⟨hs, ⟨c, hc⟩, rfl⟩)⟩

theorem sexec_deleted_sub {st st' : Assign} {op : SOp} {d : Diff}
    (h : sexec st op = .ok (st', d)) {x : Nat} (hx : x ∈ d.deleted) :
    x ∈ clusterIds st := by
  cases op with
  | opMerge cs =>
    obtain ⟨hg, -, rfl⟩ := merge_ok_iff.mp h
    exact hg.2 x hx
  | opSplit ss =>
    obtain ⟨hg, -, rfl⟩ := split_ok_iff.mp h
    have hx' : x ∈ sources ss st := (List.mem_filter.mp hx).1
    obtain ⟨s, -, hm⟩ := mem_sources.mp hx'
    exact mem_clusterIds.mpr ⟨s, hm⟩

theorem sexec_deleted_gone {st st' : Assign} {op : SOp} {d : Diff}
    (h : sexec st op = .ok (st', d)) {x : Nat} (hx : x ∈ d.deleted) :
    x ∉ clusterIds st' := by
  have hxlt : x ≤ maxId st := clusterIds_le_maxId (sexec_deleted_sub h hx)
  cases op with
  | opMerge cs =>
    obtain ⟨hg, rfl, rfl⟩ := merge_ok_iff.mp h
    intro hc
    obtain ⟨s, hs⟩ := mem_clusterIds.mp hc
    rcases mem_mergeNewState.mp hs with ⟨-, rfl⟩ | ⟨-, hnm⟩
    · omega
    · exact hnm hx
  | opSplit ss =>
    obtain ⟨hg, rfl, rfl⟩ := split_ok_iff.mp h
    have hx' : spikesOf x (splitNewState ss st) == [] :=
      (List.mem_filter.mp hx).2
    intro hc
    have := clusterIds_iff_spikesOf.mp hc
    exact this (eq_of_beq hx')

/-! ## Store-level and reachability lemmas -/

theorem execOp_ok_elim {ck : Clustering} {op : SOp} {ck' : Clustering} {d : Diff}
    (h : execOp ck op = .ok (ck', d)) :
    sexec ck.spike_clusters op = .ok (ck'.spike_clusters, d) ∧
    ck'.undo_stack = d :: ck.undo_stack ∧ ck'.redo_stack = [] := by
  unfold execOp at h
  cases hs : sexec ck.spike_clusters op with
  | error e =>
    rw [hs] at h
    cases h
  | ok r =>
    obtain ⟨st', d'⟩ := r
    rw [hs] at h
    cases h
    exact ⟨rfl, rfl, rfl⟩

theorem undoOp_keys {ck : Clustering} :
    spikeIds (undoOp ck).spike_clusters = spikeIds ck.spike_clusters := by
  cases hck : ck.undo_stack with
  | nil => simp [undoOp, hck]
  | cons d rest => simp [undoOp, hck, applyPatch_keys]

theorem redoOp_keys {ck : Clustering} :
    spikeIds (redoOp ck).spike_clusters = spikeIds ck.spike_clusters := by
  cases hck : ck.redo_stack with
  | nil => simp [redoOp, hck]
  | cons d rest => simp [redoOp, hck, applyPatch_keys]

theorem reach_keys {ck₀ ck : Clustering} (hr : Reach ck₀ ck) :
    spikeIds ck.spike_clusters = spikeIds ck₀.spike_clusters := by
  induction hr with
  | refl => rfl
  | step _ hex ih =>
    rw [← ih]
    exact sexec_keys (execOp_ok_elim hex).1
  | undo _ ih =>
    rw [← ih]
    exact undoOp_keys
  | redo _ ih =>
    rw [← ih]
    exact redoOp_keys

theorem reach_keysNodup {ck₀ ck : Clustering} (hN : keysNodup ck₀.spike_clusters)
    (hr : Reach ck₀ ck) : keysNodup ck.spike_clusters := by
  show (spikeIds ck.spike_clusters).Nodup
  rw [reach_keys hr]
  exact hN

theorem msreach_no_comeback {a b : Assign} (hr : MsReach a b) :
    maxId a ≤ maxId b ∧
    ∀ x, x ≤ maxId a → x ∉ clusterIds a → x ∉ clusterIds b := by
  induction hr with
  | refl => exact ⟨le_refl _, fun x _ hx => hx⟩
  | step _ hex ih =>
    have hmax := sexec_maxId hex
    have h1 := ih.1
    constructor
    · omega
    · intro x hxa hxn hxc
      rcases sexec_clusterIds_sub hex hxc with hin | rfl
      · exact ih.2 x hxa hxn hin
      · omega

theorem subsample_length_le {l : List Nat} {m : Nat} :
    (subsample l m).length ≤ m := by
  unfold subsample
  split
  next h => exact h
  next h => simp

theorem subsample_subset {l : List Nat} {m : Nat} {x : Nat}
    (hx : x ∈ subsample l m) : x ∈ l := by
  unfold subsample at hx
  split at hx
  next h => exact hx
  next h =>
    obtain ⟨i, hi, rfl⟩ := List.mem_map.mp hx
    rw [List.mem_range] at hi
    have h' : m < l.length := not_le.mp h
    have h1 : i * l.length < m * l.length :=
      (mul_lt_mul_right (by omega)).mpr hi
    rw [Nat.mul_comm m l.length] at h1
    have hidx : i * l.length / m < l.length :=
      (Nat.div_lt_iff_lt_mul (by omega)).mpr h1
    rw [List.getD_eq_getElem?_getD, List.getElem?_eq_getElem hidx]
    exact List.getElem_mem hidx

/-! ## Claim theorems -/

/-- C1: from any reachable history state, a successful merge or split followed
by `undo` restores the exact prior spike-to-cluster assignment table
(spike-for-spike), and a subsequent `redo` restores the exact post-operation
table. -/
theorem undo_redo_exact {ck₀ ck ck' : Clustering} {op : SOp} {d : Diff}
    (hN : keysNodup ck₀.spike_clusters) (hr : Reach ck₀ ck)
    (h : execOp ck op = .ok (ck', d)) :
    (undoOp ck').spike_clusters = ck.spike_clusters ∧
    (redoOp (undoOp ck')).spike_clusters = ck'.spike_clusters := by
  obtain ⟨hs, hu, hrd⟩ := execOp_ok_elim h
  have hNck : keysNodup ck.spike_clusters := reach_keysNodup hN hr
  have hundo : undoOp ck' =
      ⟨applyPatch d.old_assign ck'.spike_clusters, ck.undo_stack,
       d :: ck'.redo_stack⟩ := by
    unfold undoOp
    rw [hu]
  constructor
  · rw [hundo]
    exact sexec_undo hNck hs
  · rw [hundo]
    show applyPatch d.new_assign
      (applyPatch d.old_assign ck'.spike_clusters) = ck'.spike_clusters
    rw [sexec_undo hNck hs]
    exact sexec_redo hNck hs

/-- Witness for C1: merging clusters 1 and 2 of the example store, undoing and
redoing. -/
theorem undo_redo_exact_wit :
    keysNodup ck₀.spike_clusters ∧
    execOp ck₀ (.opMerge [1, 2]) = .ok (ckA, dA) ∧
    ((undoOp ckA).spike_clusters = ck₀.spike_clusters ∧
     (redoOp (undoOp ckA)).spike_clusters = ckA.spike_clusters) :=
  ⟨by decide, rfl,
   @undo_redo_exact ck₀ ck₀ ckA (.opMerge [1, 2]) dA (by decide)
     (Reach.refl ck₀) rfl⟩

/-- C5: every id added by a merge or split is strictly greater than every
cluster id existing immediately before the operation, the added id actually
exists afterwards, and an id deleted (retired) by the operation never
reappears in any state reachable by later merge and split operations. -/
theorem id_monotonicity_no_reuse {st st' : Assign} {op : SOp} {d : Diff}
    (h : sexec st op = .ok (st', d)) :
    (∀ a ∈ d.added, ∀ c ∈ clusterIds st, c < a) ∧
    (∀ a ∈ d.added, a ∈ clusterIds st') ∧
    (∀ st2, MsReach st' st2 → ∀ x ∈ d.deleted, x ∉ clusterIds st2) := by
  have hadd := sexec_added h
  refine ⟨?_, ?_, ?_⟩
  · intro a ha c hc
    rw [hadd, List.mem_singleton] at ha
    subst ha
    exact Nat.lt_succ_of_le (clusterIds_le_maxId hc)
  · intro a ha
    rw [hadd, List.mem_singleton] at ha
    subst ha
    exact sexec_new_mem h
  · intro st2 hr x hx
    have h1 : x ∉ clusterIds st' := sexec_deleted_gone h hx
    have h2 : x ≤ maxId st := clusterIds_le_maxId (sexec_deleted_sub h hx)
    have h3 : maxId st' = maxId st + 1 := sexec_maxId h
    exact (msreach_no_comeback hr).2 x (by omega) h1

/-- Witness for C5: merging clusters 1 and 2 of the example table. -/
theorem id_monotonicity_no_reuse_wit :
    sexec st₀ (.opMerge [1, 2]) = .ok (stA, dA) ∧
    ((∀ a ∈ dA.added, ∀ c ∈ clusterIds st₀, c < a) ∧
     (∀ a ∈ dA.added, a ∈ clusterIds stA) ∧
     (∀ st2, MsReach stA st2 → ∀ x ∈ dA.deleted, x ∉ clusterIds st2)) :=
  ⟨rfl, @id_monotonicity_no_reuse st₀ stA (.opMerge [1, 2]) dA rfl⟩

/-- C6: in every state reachable by merges, splits, undos and redos from a
store whose table is a function on its spike ids, the spike universe is
unchanged, every known spike lies in exactly one cluster's spike list, and
every spike list entry is a known spike of an existing cluster. -/
theorem partition_invariant {ck₀' ck : Clustering}
    (hN : keysNodup ck₀'.spike_clusters) (hr : Reach ck₀' ck) :
    spikeIds ck.spike_clusters = spikeIds ck₀'.spike_clusters ∧
    keysNodup ck.spike_clusters ∧
    (∀ s ∈ spikeIds ck₀'.spike_clusters,
      ∃! c, s ∈ spikesOf c ck.spike_clusters) ∧
    (∀ c s, s ∈ spikesOf c ck.spike_clusters →
      s ∈ spikeIds ck₀'.spike_clusters ∧ c ∈ clusterIds ck.spike_clusters) := by
  have hkeys := reach_keys hr
  have hNck : keysNodup ck.spike_clusters := reach_keysNodup hN hr
  refine ⟨hkeys, hNck, ?_, ?_⟩
  · intro s hs
    rw [← hkeys] at hs
    obtain ⟨c, hc⟩ := mem_spikeIds.mp hs
    refine ⟨c, mem_spikesOf.mpr hc, ?_⟩
    intro c' hc'
    have hpair := pair_eq_of_keysNodup hNck (mem_spikesOf.mp hc') hc rfl
    injection hpair with h1 h2
  · intro c s hsp
    have hm := mem_spikesOf.mp hsp
    constructor
    · rw [← hkeys]
      exact mem_spikeIds.mpr ⟨c, hm⟩
    · exact mem_clusterIds.mpr ⟨s, hm⟩

/-- Witness for C6 at the example store. -/
theorem partition_invariant_wit :
    keysNodup ck₀.spike_clusters ∧
    (spikeIds ck₀.spike_clusters = spikeIds ck₀.spike_clusters ∧
     keysNodup ck₀.spike_clusters ∧
     (∀ s ∈ spikeIds ck₀.spike_clusters,
       ∃! c, s ∈ spikesOf c ck₀.spike_clusters) ∧
     (∀ c s, s ∈ spikesOf c ck₀.spike_clusters →
       s ∈ spikeIds ck₀.spike_clusters ∧ c ∈ clusterIds ck₀.spike_clusters)) :=
  ⟨by decide, partition_invariant (by decide) (Reach.refl ck₀)⟩

/-- C2: combining of per-store diff contributions for one logical action —
zero contributions record no history entry, one is recorded as-is, two are
merged into one combined diff whose added, deleted and updated fields are the
unions of both, and three or more fail with the unsupported-operation
error. -/
theorem global_history_combining :
    (∀ hist : List Diff, recordUps hist [] = .ok hist) ∧
    (∀ (hist : List Diff) (u : Diff),
      _process_ups [u] = .ok (some u, [u]) ∧
      recordUps hist [u] = .ok (u :: hist)) ∧
    (∀ u v : Diff, ∃ w : Diff,
      _process_ups [u, v] = .ok (some w, [w, v]) ∧
      w.added = u.added ++ v.added ∧
      w.deleted = u.deleted ++ v.deleted ∧
      w.spike_ids = u.spike_ids ++ v.spike_ids) ∧
    (∀ (a b c : Diff) (rest : List Diff),
      _process_ups (a :: b :: c :: rest) = .error .notSupported) := by
  refine ⟨fun _ => rfl, fun _ _ => ⟨rfl, rfl⟩, ?_, fun _ _ _ _ => rfl⟩
  intro u v
  exact ⟨u.update v, rfl, rfl, rfl, rfl⟩

/-- Counterexample for C7: combining two simultaneous diffs mutates the first
diff record in place — after `_process_ups [cexU, cexV]` the first slot of the
list holds the combined record, which differs from the original `cexU`. -/
theorem diff_mutation_cex :
    _process_ups [cexU, cexV] = .ok (some cexW, [cexW, cexV]) ∧
    cexW ≠ cexU := by
  constructor
  · rfl
  · decide

/-- Amended C7: diff records are never modified in the zero- and
one-contribution cases, and in the two-contribution case the second diff is
left unmodified while the first is updated in place with the union of both,
the combined history entry being that mutated first diff. -/
theorem diff_immutability_amended :
    _process_ups ([] : List Diff) = .ok (none, []) ∧
    (∀ u : Diff, _process_ups [u] = .ok (some u, [u])) ∧
    (∀ u v : Diff,
      _process_ups [u, v] = .ok (some (u.update v), [u.update v, v])) :=
  ⟨rfl, fun _ => rfl, fun _ _ => rfl⟩

/-- C10: `ManualClustering.merge` called without cluster ids merges exactly
the wizard's current selection. -/
theorem merge_default_selection (mc : ManualClustering) :
    ManualClustering.merge mc none =
      ManualClustering.merge mc (some mc.wizard.selection) := rfl

/-- C8: after any successful merge or split, the notified wizard's review
queue contains no deleted cluster id and contains every newly added cluster id
exactly once, and its selection references no deleted cluster id. -/
theorem wizard_consistency {st st' : Assign} {op : SOp} {d : Diff} {w : Wizard}
    (h : sexec st op = .ok (st', d))
    (hq : ∀ c ∈ w.review_queue, c ∈ clusterIds st) :
    (∀ x ∈ d.deleted, x ∉ (on_cluster d w).review_queue) ∧
    (∀ a ∈ d.added, (on_cluster d w).review_queue.count a = 1) ∧
    (∀ x ∈ d.deleted, x ∉ (on_cluster d w).selection) := by
  have hadd := sexec_added h
  refine ⟨?_, ?_, ?_⟩
  · intro x hx hmem
    have hxle : x ≤ maxId st := clusterIds_le_maxId (sexec_deleted_sub h hx)
    rcases List.mem_append.mp hmem with hm | hm
    · have hdec := (List.mem_filter.mp hm).2
      exact (of_decide_eq_true hdec) hx
    · rw [hadd, List.mem_singleton] at hm
      omega
  · intro a ha
    rw [hadd, List.mem_singleton] at ha
    subst ha
    have hnotin : (maxId st + 1) ∉ w.review_queue := by
      intro hc
      have := clusterIds_le_maxId (hq _ hc)
      omega
    show ((w.review_queue.filter fun c => decide (c ∉ d.deleted)) ++
      d.added).count (maxId st + 1) = 1
    rw [List.count_append]
    have h0 : (w.review_queue.filter fun c => decide (c ∉ d.deleted)).count
        (maxId st + 1) = 0 := by
      rw [List.count_eq_zero]
      intro hc
      exact hnotin (List.mem_filter.mp hc).1
    rw [h0, hadd]
    simp
  · intro x hx hmem
    have hdec := (List.mem_filter.mp hmem).2
    exact (of_decide_eq_true hdec) hx

/-- Witness for C8: the wizard reviewing clusters 1, 2, 3 when clusters 1 and
2 of the example table are merged. -/
theorem wizard_consistency_wit :
    sexec st₀ (.opMerge [1, 2]) = .ok (stA, dA) ∧
    (∀ c ∈ w₀.review_queue, c ∈ clusterIds st₀) ∧
    ((∀ x ∈ dA.deleted, x ∉ (on_cluster dA w₀).review_queue) ∧
     (∀ a ∈ dA.added, (on_cluster dA w₀).review_queue.count a = 1) ∧
     (∀ x ∈ dA.deleted, x ∉ (on_cluster dA w₀).selection)) :=
  ⟨rfl, by decide,
   @wizard_consistency st₀ stA (.opMerge [1, 2]) dA w₀ rfl (by decide)⟩

/-- C3: merge fails with the invalid-operation error when fewer than two
distinct cluster ids are given or some given id does not exist; otherwise it
succeeds, the diff reports the fresh id `maxId st + 1` as added, the input
ids as deleted and the union of the input clusters' spikes as updated, all
those spikes are reassigned to the fresh id, the input clusters lose all
their spikes, and every other cluster keeps its spikes. -/
theorem merge_contract (cs : List Nat) (st : Assign) :
    (¬(2 ≤ cs.dedup.length ∧ ∀ c ∈ cs, c ∈ clusterIds st) →
      merge cs st = .error .invalidOperation) ∧
    ((2 ≤ cs.dedup.length ∧ ∀ c ∈ cs, c ∈ clusterIds st) →
      ∃ st' dm, merge cs st = .ok (st', dm) ∧
        dm.added = [maxId st + 1] ∧
        dm.deleted = cs.dedup ∧
        (∀ c ∈ clusterIds st, c < maxId st + 1) ∧
        (∀ s, s ∈ dm.spike_ids ↔ ∃ c ∈ cs, s ∈ spikesOf c st) ∧
        (∀ s, s ∈ spikesOf (maxId st + 1) st' ↔ ∃ c ∈ cs, s ∈ spikesOf c st) ∧
        (∀ c ∈ cs, ∀ s, s ∉ spikesOf c st') ∧
        (∀ c, c ∉ cs → c ≠ maxId st + 1 →
          (∀ s, s ∈ spikesOf c st' ↔ s ∈ spikesOf c st))) := by
  constructor
  · intro hng
    apply merge_error
    intro hg
    exact hng ⟨hg.1, fun c hc => hg.2 c (List.mem_dedup.mpr hc)⟩
  · intro hg
    have hg' : 2 ≤ cs.dedup.length ∧ ∀ c ∈ cs.dedup, c ∈ clusterIds st :=
      ⟨hg.1, fun c hc => hg.2 c (List.mem_dedup.mp hc)⟩
    refine ⟨mergeNewState cs st, mergeDiff cs st,
      merge_ok_iff.mpr ⟨hg', rfl, rfl⟩, rfl, rfl, ?_, ?_, ?_, ?_, ?_⟩
    · intro c hc
      exact Nat.lt_succ_of_le (clusterIds_le_maxId hc)
    · intro s
      show s ∈ (mergeTouched cs st).map Prod.fst ↔ ∃ c ∈ cs, s ∈ spikesOf c st
      simp only [mergeTouched, List.mem_map, List.mem_filter, decide_eq_true_eq]
      constructor
      · rintro ⟨⟨a, b⟩, ⟨hp, hb⟩, rfl⟩
        exact ⟨b, List.mem_dedup.mp hb, mem_spikesOf.mpr hp⟩
      · rintro ⟨c, hc, hs⟩
        exact ⟨(s, c), ⟨mem_spikesOf.mp hs, List.mem_dedup.mpr hc⟩, rfl⟩
    · intro s
      rw [mem_spikesOf, mem_mergeNewState]
      constructor
      · rintro (⟨⟨c', hc', hm⟩, -⟩ | ⟨hm, -⟩)
        · exact ⟨c', List.mem_dedup.mp hc', mem_spikesOf.mpr hm⟩
        · exfalso
          have h2 : maxId st + 1 ≤ maxId st := snd_le_maxId hm
          omega
      · rintro ⟨c, hc, hs⟩
        exact Or.inl ⟨⟨c, List.mem_dedup.mpr hc, mem_spikesOf.mp hs⟩, rfl⟩
    · intro c hc s hs
      have hm := mem_spikesOf.mp hs
      rcases mem_mergeNewState.mp hm with ⟨-, hceq⟩ | ⟨-, hnm⟩
      · have hle := clusterIds_le_maxId (hg.2 c hc)
        omega
      · exact hnm (List.mem_dedup.mpr hc)
    · intro c hcn hcne s
      rw [mem_spikesOf, mem_spikesOf, mem_mergeNewState]
      constructor
      · rintro (⟨-, hceq⟩ | ⟨hm, -⟩)
        · exact absurd hceq hcne
        · exact hm
      · intro hm
        exact Or.inr ⟨hm, fun hc => hcn (List.mem_dedup.mp hc)⟩

/-- Witness for C3: merging clusters 1 and 2 of the example table. -/
theorem merge_contract_wit :
    (2 ≤ ([1, 2] : List Nat).dedup.length ∧
      ∀ c ∈ ([1, 2] : List Nat), c ∈ clusterIds st₀) ∧
    (∃ st' dm, merge [1, 2] st₀ = .ok (st', dm) ∧
      dm.added = [maxId st₀ + 1] ∧
      dm.deleted = ([1, 2] : List Nat).dedup ∧
      (∀ c ∈ clusterIds st₀, c < maxId st₀ + 1) ∧
      (∀ s, s ∈ dm.spike_ids ↔ ∃ c ∈ ([1, 2] : List Nat), s ∈ spikesOf c st₀) ∧
      (∀ s, s ∈ spikesOf (maxId st₀ + 1) st' ↔
        ∃ c ∈ ([1, 2] : List Nat), s ∈ spikesOf c st₀) ∧
      (∀ c ∈ ([1, 2] : List Nat), ∀ s, s ∉ spikesOf c st') ∧
      (∀ c, c ∉ ([1, 2] : List Nat) → c ≠ maxId st₀ + 1 →
        (∀ s, s ∈ spikesOf c st' ↔ s ∈ spikesOf c st₀))) :=
  ⟨by decide, (merge_contract [1, 2] st₀).2 (by decide)⟩

/-- C4: split fails with the invalid-operation error when the spike set is
empty or contains an unknown spike; otherwise it succeeds, the diff reports
exactly the fresh id `maxId st + 1` as added, the new cluster contains exactly
the given spikes (even when drawn from several source clusters), the given
spikes are removed from every other cluster, the deleted ids are exactly the
fully emptied source clusters, and every source cluster retaining a spike
still exists. -/
theorem split_contract (ss : List Nat) (st : Assign) :
    (¬(ss ≠ [] ∧ ∀ s ∈ ss, s ∈ spikeIds st) →
      split ss st = .error .invalidOperation) ∧
    ((ss ≠ [] ∧ ∀ s ∈ ss, s ∈ spikeIds st) →
      ∃ st' dm, split ss st = .ok (st', dm) ∧
        dm.added = [maxId st + 1] ∧
        (∀ s, s ∈ spikesOf (maxId st + 1) st' ↔ s ∈ ss) ∧
        (∀ c, c ≠ maxId st + 1 → ∀ s ∈ ss, s ∉ spikesOf c st') ∧
        (∀ c, c ∈ dm.deleted ↔
          ((∃ s ∈ ss, s ∈ spikesOf c st) ∧ spikesOf c st' = [])) ∧
        (∀ c, (∃ s ∈ ss, s ∈ spikesOf c st) → spikesOf c st' ≠ [] →
          c ∈ clusterIds st')) := by
  constructor
  · intro hng
    apply split_error
    intro hg
    refine hng ⟨?_, fun s hs => hg.2 s (List.mem_dedup.mpr hs)⟩
    intro hss
    apply hg.1
    rw [hss]
    rfl
  · intro hg
    have hg' : ss.dedup ≠ [] ∧ ∀ s ∈ ss.dedup, s ∈ spikeIds st :=
      ⟨fun hd => hg.1 ((List.dedup_eq_nil ss).mp hd),
       fun s hs => hg.2 s (List.mem_dedup.mp hs)⟩
    refine ⟨splitNewState ss st, splitDiff ss st,
      split_ok_iff.mpr ⟨hg', rfl, rfl⟩, rfl, ?_, ?_, ?_, ?_⟩
    · intro s
      rw [mem_spikesOf, mem_splitNewState]
      constructor
      · rintro (⟨hs, -, -⟩ | ⟨hm, -⟩)
        · exact List.mem_dedup.mp hs
        · exfalso
          have h2 : maxId st + 1 ≤ maxId st := snd_le_maxId hm
          omega
      · intro hs
        obtain ⟨c, hc⟩ := mem_spikeIds.mp (hg.2 s hs)
        exact Or.inl ⟨List.mem_dedup.mpr hs, ⟨c, hc⟩, rfl⟩
    · intro c hcne s hs hmem
      have hm := mem_spikesOf.mp hmem
      rcases mem_splitNewState.mp hm with ⟨-, -, hceq⟩ | ⟨-, hsn⟩
      · exact hcne hceq
      · exact hsn (List.mem_dedup.mpr hs)
    · intro c
      show c ∈ (sources ss st).filter
          (fun c => spikesOf c (splitNewState ss st) == []) ↔ _
      rw [List.mem_filter]
      constructor
      · rintro ⟨hsrc, hbeq⟩
        obtain ⟨s, hs, hm⟩ := mem_sources.mp hsrc
        exact ⟨⟨s, List.mem_dedup.mp hs, mem_spikesOf.mpr hm⟩, eq_of_beq hbeq⟩
      · rintro ⟨⟨s, hs, hsp⟩, hemp⟩
        refine ⟨mem_sources.mpr ⟨s, List.mem_dedup.mpr hs,
          mem_spikesOf.mp hsp⟩, ?_⟩
        exact beq_iff_eq.mpr hemp
    · intro c _ hne
      exact clusterIds_iff_spikesOf.mpr hne

/-- Witness for C4: splitting spikes 2 and 5 out of the example table (the
spec's second worked example). -/
theorem split_contract_wit :
    (([2, 5] : List Nat) ≠ [] ∧ ∀ s ∈ ([2, 5] : List Nat), s ∈ spikeIds st₀) ∧
    (∃ st' dm, split [2, 5] st₀ = .ok (st', dm) ∧
      dm.added = [maxId st₀ + 1] ∧
      (∀ s, s ∈ spikesOf (maxId st₀ + 1) st' ↔ s ∈ ([2, 5] : List Nat)) ∧
      (∀ c, c ≠ maxId st₀ + 1 → ∀ s ∈ ([2, 5] : List Nat),
        s ∉ spikesOf c st') ∧
      (∀ c, c ∈ dm.deleted ↔
        ((∃ s ∈ ([2, 5] : List Nat), s ∈ spikesOf c st₀) ∧
         spikesOf c st' = [])) ∧
      (∀ c, (∃ s ∈ ([2, 5] : List Nat), s ∈ spikesOf c st₀) →
        spikesOf c st' ≠ [] → c ∈ clusterIds st')) :=
  ⟨by decide, (split_contract [2, 5] st₀).2 (by decide)⟩

/-- C9: when every listed cluster id is present in the index, `select_spikes`
succeeds and returns the concatenation, in the order of `cluster_ids`, of one
segment per listed cluster, each containing at most `m` spikes all drawn from
that cluster's indexed spike list; and the selection is deterministic — a
repeated call with identical inputs returns the identical sequence. -/
theorem select_spikes_spec (cluster_ids : List Nat) (m : Nat)
    (spc : List (Nat × List Nat))
    (h : ∀ c ∈ cluster_ids, (lookupA c spc).isSome = true) :
    ∃ segs : List (List Nat),
      select_spikes cluster_ids m spc = .ok segs.flatten ∧
      segs.length = cluster_ids.length ∧
      (∀ i, i < cluster_ids.length →
        (segs.getD i []).length ≤ m ∧
        ∀ x ∈ segs.getD i [],
          ∃ l, lookupA (cluster_ids.getD i 0) spc = some l ∧ x ∈ l) ∧
      select_spikes cluster_ids m spc = select_spikes cluster_ids m spc := by
  induction cluster_ids with
  | nil => exact ⟨[], rfl, rfl, fun i hi => absurd hi (by simp), rfl⟩
  | cons c rest ih =>
    have hc := h c (List.mem_cons_self c rest)
    obtain ⟨l, hl⟩ := Option.isSome_iff_exists.mp hc
    obtain ⟨segs, hsel, hlen, hseg, -⟩ :=
      ih (fun c' hc' => h c' (List.mem_cons_of_mem c hc'))
    refine ⟨subsample l m :: segs, ?_, by simp [hlen], ?_, rfl⟩
    · show select_spikes (c :: rest) m spc = .ok (subsample l m :: segs).flatten
      simp [select_spikes, hl, hsel]
    · intro i hi
      cases i with
      | zero =>
        refine ⟨subsample_length_le, ?_⟩
        intro x hx
        simp only [List.getD_cons_zero] at hx
        exact ⟨l, by simpa using hl, subsample_subset hx⟩
      | succ j =>
        have hj : j < rest.length := by
          simp only [List.length_cons] at hi
          omega
        simpa only [List.getD_cons_succ] using hseg j hj

/-- Witness for C9: selecting at most two spikes each from clusters 1 and 2 of
the example index. -/
theorem select_spikes_spec_wit :
    (∀ c ∈ ([1, 2] : List Nat), (lookupA c spc₀).isSome = true) ∧
    (∃ segs : List (List Nat),
      select_spikes [1, 2] 2 spc₀ = .ok segs.flatten ∧
      segs.length = ([1, 2] : List Nat).length ∧
      (∀ i, i < ([1, 2] : List Nat).length →
        (segs.getD i []).length ≤ 2 ∧
        ∀ x ∈ segs.getD i [],
          ∃ l, lookupA (([1, 2] : List Nat).getD i 0) spc₀ = some l ∧ x ∈ l) ∧
      select_spikes [1, 2] 2 spc₀ = select_spikes [1, 2] 2 spc₀) :=
  ⟨by decide, select_spikes_spec [1, 2] 2 spc₀ (by decide)⟩
